import Mathlib

/-!
Verification of the obsidian-to-org converter (src/obsidian_to_org/__main__.py).

Text is modelled as `List Char`.  Each regex substitution of the Python source
is embedded as a scanner: a matcher `tm : List Char → Option (List Char × List Char)`
that attempts an anchored match at the head of the input and returns the
replacement text together with the rest of the input after the match, and a
driver `reSub` that walks the input left to right, exactly as `re.sub` does
(non-overlapping leftmost matches, scanning resumes after each match).
-/

def chars (s : String) : List Char := s.data

/-- Python whitespace for `str` patterns: the characters matched by the regex
class `\s` (Unicode mode) and stripped by `str.strip()`. -/
def isPyWS (c : Char) : Bool :=
  c = ' ' || c = '\t' || c = '\n' || c = '\r' || c = '\x0b' || c = '\x0c' ||
  c = '\x1c' || c = '\x1d' || c = '\x1e' || c = '\x1f' || c = '\x85' || c = ' ' ||
  c = ' ' || (' ' ≤ c && c ≤ ' ') || c = ' ' || c = ' ' ||
  c = ' ' || c = ' ' || c = '　'

/-- The line boundaries recognised by Python `str.splitlines`. -/
def isLineBreak (c : Char) : Bool :=
  c = '\n' || c = '\r' || c = '\x0b' || c = '\x0c' || c = '\x1c' || c = '\x1d' ||
  c = '\x1e' || c = '\x85' || c = ' ' || c = ' '

/-- Python `str.strip()`. -/
def pyStrip (l : List Char) : List Char :=
  ((l.dropWhile isPyWS).reverse.dropWhile isPyWS).reverse

/-- Helper for `wsCollapse`: the flag records whether the previous character
belonged to a whitespace run (so the run only emits one space). -/
def wsCollapseAux : Bool → List Char → List Char
  | _, [] => []
  | prevWS, c :: cs =>
    if isPyWS c then
      if prevWS then wsCollapseAux true cs else ' ' :: wsCollapseAux true cs
    else c :: wsCollapseAux false cs

/-- `re.sub(r"[ \s]+", " ", s)`: collapse every run of Unicode whitespace
into a single ASCII space. -/
def wsCollapse (l : List Char) : List Char := wsCollapseAux false l

/-- The registry key of a name: `re.sub(r"[ \s]+", " ", s).strip()`
(line 192 and line 213 of the source). -/
def normKey (l : List Char) : List Char := pyStrip (wsCollapse l)

/-- `re.sub(r"[ ]", " ", s)`: replace non-breaking spaces by ASCII spaces
(lines 211 and 221 of the source). -/
def nbspRepl (l : List Char) : List Char :=
  l.map (fun c => if c = ' ' then ' ' else c)

/-- The part of a string that `.` of a Python regex can see from the start:
everything before the first newline. -/
def firstLine (l : List Char) : List Char := l.takeWhile (fun c => !(c = '\n'))

/-- `re.match(r"https?://|.*/|.*\..*", page)` of `simple_repl` (line 81):
true when the page starts with a URL scheme or its first line contains a
slash or a dot. -/
def skipCheck (p : List Char) : Bool :=
  (chars "http://").isPrefixOf p || (chars "https://").isPrefixOf p ||
  decide ('/' ∈ firstLine p) || decide ('.' ∈ firstLine p)

/-- Characters allowed in the group `[^\]|]` (embed name, wiki page of the
labeled form). -/
def embChar (c : Char) : Bool := !(c = ']' || c = '|')

/-- Characters allowed in the group `[^\]|\[]` (simple wiki link, bare link). -/
def wikiChar (c : Char) : Bool := !(c = ']' || c = '|' || c = '[')

/-- Characters allowed in the group `[^\]]` (labels, embed size hints). -/
def notRB (c : Char) : Bool := !(c = ']')

/-! ### The generic substitution driver -/

/-- One fuel-indexed pass of `re.sub`: at each position attempt the anchored
match `tm`; on success emit the replacement and continue after the match, on
failure emit the head character and continue one position later.  The fuel
only serves termination; `reSub` supplies enough of it. -/
def subF (tm : List Char → Option (List Char × List Char)) : Nat → List Char → List Char
  | 0, l => l
  | _ + 1, [] => []
  | fuel + 1, c :: cs =>
    match tm (c :: cs) with
    | some (r, rest) => r ++ subF tm fuel rest
    | none => c :: subF tm fuel cs

/-- `re.sub` with matcher `tm` over the whole input. -/
def reSub (tm : List Char → Option (List Char × List Char)) (l : List Char) : List Char :=
  subF tm l.length l

/-! ### The four link patterns of the source -/

/-- Replacement of `simple_repl` (lines 79-83): skip URL-, path- and
extension-looking pages, otherwise produce a file reference. -/
def simpleRepl (g : List Char) : List Char :=
  if skipCheck g then chars "[[" ++ g ++ chars "]]"
  else chars "[[file:" ++ g ++ chars ".org][" ++ g ++ chars "]]"

/-- Anchored match of `WIKI_SIMPLE_RE` and of `BARE_LINK_RE` (both are the
regex, two open brackets, one-or-more of the class `not-rbracket-pipe-lbracket`
captured, two close brackets): returns the captured group and the rest. -/
def tmWiki : List Char → Option (List Char × List Char)
  | '[' :: '[' :: rest =>
    match rest.dropWhile wikiChar with
    | ']' :: ']' :: r2 =>
      if rest.takeWhile wikiChar = [] then none
      else some (rest.takeWhile wikiChar, r2)
    | _ => none
  | _ => none

/-- `WIKI_SIMPLE_RE.sub(simple_repl, org)` matcher: match plus replacement. -/
def tmSimple (l : List Char) : Option (List Char × List Char) :=
  (tmWiki l).map (fun g => (simpleRepl g.1, g.2))

/-- Anchored match of `EMBED_RE` (bang, two open brackets, one-or-more of
`not-rbracket-pipe` captured, an optional pipe-plus-`not-rbracket`-run, two
close brackets), already paired with the replacement of `embed_repl`
(lines 69-71). -/
def tmEmbed : List Char → Option (List Char × List Char)
  | '!' :: '[' :: '[' :: rest =>
    if rest.takeWhile embChar = [] then none
    else
      match rest.dropWhile embChar with
      | ']' :: ']' :: r2 =>
        some (chars "[[file:../attachments/" ++ rest.takeWhile embChar ++ chars "]]", r2)
      | '|' :: r2 =>
        match r2.dropWhile notRB with
        | ']' :: ']' :: r4 =>
          some (chars "[[file:../attachments/" ++ rest.takeWhile embChar ++ chars "]]", r4)
        | _ => none
      | _ => none
  | _ => none

/-- Anchored match of `WIKI_DESC_RE` (two open brackets, one-or-more of
`not-rbracket-pipe` captured, a pipe, one-or-more of `not-rbracket` captured,
two close brackets), already paired with the replacement of line 76. -/
def tmDesc : List Char → Option (List Char × List Char)
  | '[' :: '[' :: rest =>
    match rest.dropWhile embChar with
    | '|' :: r2 =>
      if rest.takeWhile embChar = [] then none
      else
        match r2.dropWhile notRB with
        | ']' :: ']' :: r4 =>
          if r2.takeWhile notRB = [] then none
          else some (chars "[[file:" ++ rest.takeWhile embChar ++ chars ".org][" ++
            r2.takeWhile notRB ++ chars "]]", r4)
        | _ => none
    | _ => none
  | _ => none

/-- Lazy scan for the second group of `FILE_LINK_RE`: the shortest run of
non-newline characters followed by two close brackets. -/
def scanG2 : List Char → Option (List Char × List Char)
  | ']' :: ']' :: r => some ([], r)
  | c :: r => if c = '\n' then none else (scanG2 r).map (fun g => (c :: g.1, g.2))
  | [] => none

/-- Lazy scan for the first group of `FILE_LINK_RE`: at each close-open
bracket pair try the rest of the pattern, extending the first group on
failure, exactly as the backtracking of the lazy `.*?` does. -/
def scanG1 : List Char → Option (List Char × List Char × List Char)
  | ']' :: '[' :: r =>
    (match scanG2 r with
     | some g => some ([], g.1, g.2)
     | none => (scanG1 r).map (fun g => (']' :: '[' :: g.1, g.2.1, g.2.2)))
  | c :: r => if c = '\n' then none else (scanG1 r).map (fun g => (c :: g.1, g.2.1, g.2.2))
  | [] => none

/-! ### The Python path stem (`pathlib.Path(raw).stem`) -/

/-- Split on slashes, keeping empty parts (helper for `pyName`). -/
def splitSlashAux : List Char → List Char → List (List Char)
  | cur, [] => [cur.reverse]
  | cur, c :: rest =>
    if c = '/' then cur.reverse :: splitSlashAux [] rest
    else splitSlashAux (c :: cur) rest

def splitSlash (l : List Char) : List (List Char) := splitSlashAux [] l

/-- `pathlib.PurePath(raw).name`: the last path component, with empty and
single-dot components dropped the way `pathlib` normalises them away. -/
def pyName (l : List Char) : List Char :=
  (((splitSlash l).filter (fun s => !s.isEmpty && !(s == ['.']))).getLast?).getD []

/-- Index of the last dot of a component, if any. -/
def rfindDot : List Char → Option Nat
  | [] => none
  | c :: rest =>
    match rfindDot rest with
    | some i => some (i + 1)
    | none => if c = '.' then some 0 else none

/-- `pathlib.PurePath(raw).stem`: the name with its final dot-suffix removed,
where a suffix needs the last dot to be neither the first nor past the last
character of the name. -/
def pyStem (raw : List Char) : List Char :=
  match rfindDot (pyName raw) with
  | some i =>
    if 0 < i ∧ i < (pyName raw).length - 1 then (pyName raw).take i else pyName raw
  | none => pyName raw

/-! ### Pass 2: the relink substitutions of `convert_directory` -/

/-- Replacement of `repl_file` (lines 209-215): normalise the label,
take the stem of the raw path, collapse-and-strip it, look it up; the
original match is kept when the lookup fails. -/
def fileRepl (nodes : List Char → Option (List Char)) (raw label : List Char) : List Char :=
  match nodes (normKey (pyStem raw)) with
  | some nid => chars "[[id:" ++ nid ++ chars "][" ++ nbspRepl label ++ chars "]]"
  | none => chars "[[file:" ++ raw ++ chars "][" ++ label ++ chars "]]"

/-- Anchored match of `FILE_LINK_RE` (two open brackets, the literal
`file:`, lazy group, close-open bracket pair, lazy group, two close
brackets), paired with the replacement of `repl_file`. -/
def tmFile (nodes : List Char → Option (List Char)) :
    List Char → Option (List Char × List Char)
  | '[' :: '[' :: 'f' :: 'i' :: 'l' :: 'e' :: ':' :: rest =>
    (scanG1 rest).map (fun g => (fileRepl nodes g.1 g.2.1, g.2.2))
  | _ => none

/-- Replacement of `repl_bare` (lines 220-224): replace non-breaking spaces,
strip to build the key, look it up; the original match is kept when the
lookup fails. -/
def bareRepl (nodes : List Char → Option (List Char)) (g : List Char) : List Char :=
  match nodes (pyStrip (nbspRepl g)) with
  | some nid => chars "[[id:" ++ nid ++ chars "][" ++ nbspRepl g ++ chars "]]"
  | none => chars "[[" ++ g ++ chars "]]"

/-- `BARE_LINK_RE.sub(repl_bare, text)` matcher. -/
def tmBare (nodes : List Char → Option (List Char)) (l : List Char) :
    Option (List Char × List Char) :=
  (tmWiki l).map (fun g => (bareRepl nodes g.1, g.2))

/-- Step 0 of `fix_links`. -/
def embedSub (l : List Char) : List Char := reSub tmEmbed l

/-- Step 1 of `fix_links`. -/
def descSub (l : List Char) : List Char := reSub tmDesc l

/-- Step 2 of `fix_links`. -/
def simpleSub (l : List Char) : List Char := reSub tmSimple l

/-- `fix_links` (lines 67-87): embeds, then labeled wiki links, then simple
wiki links. -/
def fixLinks (l : List Char) : List Char := simpleSub (descSub (embedSub l))

/-- The file-to-id substitution of the relink pass (line 217). -/
def fileSub (nodes : List Char → Option (List Char)) (l : List Char) : List Char :=
  reSub (tmFile nodes) l

/-- The bare-link substitution of the relink pass (line 226). -/
def bareSub (nodes : List Char → Option (List Char)) (l : List Char) : List Char :=
  reSub (tmBare nodes) l

/-- Pass 2 over one document (lines 203-228): file links first, bare links
second. -/
def relink (nodes : List Char → Option (List Char)) (l : List Char) : List Char :=
  bareSub nodes (fileSub nodes l)

/-! ### The identifier registry (lines 176-195) -/

/-- The registry: a dict written by `nodes[key] = nid` in walk order, keys
being the collapsed-and-stripped stems.  Modelled as the function a Python
dict denotes, where a later assignment to the same key overwrites. -/
def buildNodes (entries : List (List Char × List Char)) : List Char → Option (List Char) :=
  entries.foldl (fun m e => fun k => if k = normKey e.1 then some e.2 else m k)
    (fun _ => none)

/-! ### `add_node_id` (lines 140-147) -/

/-- `add_node_id`: the five successive writes, then the previous content. -/
def addNodeId (content nodeId stem : List Char) : List Char :=
  chars ":PROPERTIES:\n" ++ (chars ":ID: " ++ nodeId ++ chars "\n") ++
    chars ":END:\n" ++ (chars "#+title: " ++ stem ++ chars "\n\n") ++ content

/-- The metadata block exactly as the specification describes it: a
property-block open marker line, one line binding the unique-identifier
property, a property-block close marker line, a title directive line, and a
blank line. -/
def specMetadataHeader (nodeId stem : List Char) : List Char :=
  chars ":PROPERTIES:" ++ ['\n'] ++ (chars ":ID: " ++ nodeId) ++ ['\n'] ++
    chars ":END:" ++ ['\n'] ++ (chars "#+title: " ++ stem) ++ ['\n'] ++ ['\n']

/-! ### The comment transforms (lines 32-55) -/

/-- `str.splitlines(keepends=True)`, accumulator-style. -/
def splitKeepAux : List Char → List Char → List (List Char)
  | cur, [] => if cur = [] then [] else [cur.reverse]
  | cur, '\r' :: '\n' :: rest => (cur.reverse ++ ['\r', '\n']) :: splitKeepAux [] rest
  | cur, c :: rest =>
    if isLineBreak c then (cur.reverse ++ [c]) :: splitKeepAux [] rest
    else splitKeepAux (c :: cur) rest

def pySplitLinesKeep (l : List Char) : List (List Char) := splitKeepAux [] l

/-- Anchored match of the comment marker `COMMENT_MARKER`, paired with the
replacement text of `restore_comments`. -/
def tmMarker (l : List Char) : Option (List Char × List Char) :=
  if (chars "#!#comment:").isPrefixOf l then some (['#', ' '], l.drop 11) else none

/-- `line.replace(COMMENT_MARKER, "# ")`: every occurrence of the marker is
replaced, scanning left to right. -/
def restoreMarker (l : List Char) : List Char := reSub tmMarker l

/-- `restore_comments` (lines 52-55): per line of the input, replace every
occurrence of the private marker, and join. -/
def restoreComments (l : List Char) : List Char :=
  ((pySplitLinesKeep l).map restoreMarker).flatten

/-- `str.split` on the two-percent delimiter, accumulator-style. -/
def splitPctAux : List Char → List Char → List (List Char)
  | cur, '%' :: '%' :: rest => cur.reverse :: splitPctAux [] rest
  | cur, c :: rest => splitPctAux (c :: cur) rest
  | cur, [] => [cur.reverse]

def splitPct (l : List Char) : List (List Char) := splitPctAux [] l

/-- Handling of one comment span in `fix_markdown_comments` (lines 40-47):
multi-line spans are marker-prefixed per line after dropping one leading
blank line, single-line spans become an inline html comment. -/
def fmcChunk (chunk : List Char) : List (List Char) :=
  if '\n' ∈ chunk then
    (match pySplitLinesKeep chunk with
     | l0 :: rest => if pyStrip l0 = [] then rest else l0 :: rest
     | [] => []).map (fun ln => chars "#!#comment:" ++ ln)
  else [chars "<!--", chunk, chars "-->"]

/-- The alternation loop of `fix_markdown_comments` (lines 34-48): spans
alternate between plain text (copied) and comment spans (transformed). -/
def fmcLoop : Bool → List (List Char) → List (List Char)
  | _, [] => []
  | false, chunk :: rest => chunk :: fmcLoop true rest
  | true, chunk :: rest => fmcChunk chunk ++ fmcLoop false rest

/-- `fix_markdown_comments` (lines 32-49). -/
def fixMarkdownComments (l : List Char) : List Char :=
  (fmcLoop false (splitPct l)).flatten

/-! ### Shape predicates used by the no-match lemmas -/

/-- Does the text contain a close bracket immediately followed by an open
bracket (the literal middle of a file link)? -/
def hasPair : List Char → Bool
  | ']' :: '[' :: _ => true
  | _ :: rest => hasPair rest
  | [] => false

/-- Does the text contain two adjacent open brackets? -/
def hasLL : List Char → Bool
  | '[' :: '[' :: _ => true
  | _ :: rest => hasLL rest
  | [] => false

/-- Does the text contain a bang followed by two open brackets? -/
def hasBangLL : List Char → Bool
  | '!' :: '[' :: '[' :: _ => true
  | _ :: rest => hasBangLL rest
  | [] => false

/-! ### Generic facts about the substitution driver -/

theorem subF_congr (tm : List Char → Option (List Char × List Char))
    (htm : ∀ l r rest, tm l = some (r, rest) → rest.length < l.length) :
    ∀ f1 f2 l, l.length ≤ f1 → l.length ≤ f2 → subF tm f1 l = subF tm f2 l := by
  intro f1
  induction f1 with
  | zero =>
    intro f2 l h1 _
    have hl : l = [] := List.eq_nil_of_length_eq_zero (Nat.le_zero.mp h1)
    subst hl
    cases f2 <;> rfl
  | succ f ih =>
    intro f2 l h1 h2
    cases l with
    | nil => cases f2 <;> rfl
    | cons c cs =>
      cases f2 with
      | zero => simp at h2
      | succ f3 =>
        simp only [List.length_cons, Nat.succ_le_succ_iff] at h1 h2
        simp only [subF]
        cases h : tm (c :: cs) with
        | none =>
          have := ih f3 cs h1 h2
          simp [this]
        | some pr =>
          obtain ⟨r, rest⟩ := pr
          have hlt : rest.length < cs.length + 1 := htm _ _ _ h
          have h1a : rest.length ≤ f := le_trans (Nat.lt_succ_iff.mp hlt) h1
          have h2a : rest.length ≤ f3 := le_trans (Nat.lt_succ_iff.mp hlt) h2
          have := ih f3 rest h1a h2a
          simp [this]

theorem reSub_nil (tm : List Char → Option (List Char × List Char)) :
    reSub tm [] = [] := rfl

theorem reSub_cons_none (tm : List Char → Option (List Char × List Char))
    (c : Char) (cs : List Char) (h : tm (c :: cs) = none) :
    reSub tm (c :: cs) = c :: reSub tm cs := by
  simp [reSub, subF, h]

theorem reSub_cons_some (tm : List Char → Option (List Char × List Char))
    (htm : ∀ l r rest, tm l = some (r, rest) → rest.length < l.length)
    (c : Char) (cs r rest : List Char) (h : tm (c :: cs) = some (r, rest)) :
    reSub tm (c :: cs) = r ++ reSub tm rest := by
  have hlt : rest.length < cs.length + 1 := htm _ _ _ h
  simp only [reSub, List.length_cons, subF, h]
  have := subF_congr tm htm cs.length rest.length rest (Nat.lt_succ_iff.mp hlt) (le_refl _)
  simp [this]

/-- Scanning walks over any stretch of characters at which the matcher
cannot fire. -/
theorem reSub_skip (tm : List Char → Option (List Char × List Char))
    (x t : List Char) (h : ∀ c ∈ x, ∀ cs, tm (c :: cs) = none) :
    reSub tm (x ++ t) = x ++ reSub tm t := by
  induction x with
  | nil => simp
  | cons c x2 ih =>
    have hh : tm (c :: (x2 ++ t)) = none := h c (List.mem_cons_self c x2) _
    rw [List.cons_append, reSub_cons_none tm _ _ hh,
      ih (fun d hd cs => h d (List.mem_cons_of_mem c hd) cs), List.cons_append]


/-! ### takeWhile and dropWhile over concatenations -/

theorem takeWhile_append_all (P : Char → Bool) (x y : List Char)
    (hx : ∀ c ∈ x, P c = true) :
    (x ++ y).takeWhile P = x ++ y.takeWhile P := by
  induction x with
  | nil => simp
  | cons c x2 ih =>
    have hc := hx c (List.mem_cons_self c x2)
    simp [List.takeWhile_cons, hc, ih (fun d hd => hx d (List.mem_cons_of_mem c hd))]

theorem dropWhile_append_all (P : Char → Bool) (x y : List Char)
    (hx : ∀ c ∈ x, P c = true) :
    (x ++ y).dropWhile P = y.dropWhile P := by
  induction x with
  | nil => simp
  | cons c x2 ih =>
    have hc := hx c (List.mem_cons_self c x2)
    simp [List.dropWhile_cons, hc, ih (fun d hd => hx d (List.mem_cons_of_mem c hd))]

theorem length_dropWhile_le2 (P : Char → Bool) (l : List Char) :
    (l.dropWhile P).length ≤ l.length := by
  induction l with
  | nil => simp
  | cons c cs ih =>
    by_cases h : P c = true
    · simp only [List.dropWhile_cons, h, if_true]
      exact le_trans ih (by simp)
    · simp [List.dropWhile_cons, h]

/-! ### Every successful match consumes at least one character -/

theorem tmWiki_rest_lt (l g rest : List Char) (h : tmWiki l = some (g, rest)) :
    rest.length < l.length := by
  unfold tmWiki at h
  split at h
  case h_2 => exact absurd h (by simp)
  case h_1 x rest0 =>
    split at h
    case h_2 => exact absurd h (by simp)
    case h_1 r2 heq =>
      split at h
      · exact absurd h (by simp)
      · injection h with h1
        injection h1 with h1 h2
        subst h2
        have hlen : (rest0.dropWhile wikiChar).length ≤ rest0.length :=
          length_dropWhile_le2 _ _
        rw [heq] at hlen
        simp only [List.length_cons] at hlen
        simp only [List.length_cons]
        omega

theorem tmSimple_rest_lt (l g rest : List Char) (h : tmSimple l = some (g, rest)) :
    rest.length < l.length := by
  unfold tmSimple at h
  cases hw : tmWiki l with
  | none => rw [hw] at h; exact absurd h (by simp)
  | some p =>
    obtain ⟨g1, r1⟩ := p
    rw [hw] at h
    simp only [Option.map] at h
    injection h with h1
    injection h1 with ha hb
    subst hb
    exact tmWiki_rest_lt l g1 r1 (by rw [hw])

theorem tmBare_rest_lt (nodes : List Char → Option (List Char)) (l g rest : List Char)
    (h : tmBare nodes l = some (g, rest)) : rest.length < l.length := by
  unfold tmBare at h
  cases hw : tmWiki l with
  | none => rw [hw] at h; exact absurd h (by simp)
  | some p =>
    obtain ⟨g1, r1⟩ := p
    rw [hw] at h
    simp only [Option.map] at h
    injection h with h1
    injection h1 with ha hb
    subst hb
    exact tmWiki_rest_lt l g1 r1 (by rw [hw])

theorem tmEmbed_rest_lt (l g rest : List Char) (h : tmEmbed l = some (g, rest)) :
    rest.length < l.length := by
  unfold tmEmbed at h
  split at h
  case h_2 => exact absurd h (by simp)
  case h_1 x rest0 =>
    split at h
    · exact absurd h (by simp)
    · split at h
      case h_1 r2 heq =>
        injection h with h1
        injection h1 with ha hb
        subst hb
        have hlen : (rest0.dropWhile embChar).length ≤ rest0.length :=
          length_dropWhile_le2 _ _
        rw [heq] at hlen
        simp only [List.length_cons] at hlen
        simp only [List.length_cons]
        omega
      case h_2 r2 heq =>
        split at h
        case h_1 r4 heq2 =>
          injection h with h1
          injection h1 with ha hb
          subst hb
          have hlen : (rest0.dropWhile embChar).length ≤ rest0.length :=
            length_dropWhile_le2 _ _
          have hlen2 : (r2.dropWhile notRB).length ≤ r2.length :=
            length_dropWhile_le2 _ _
          rw [heq] at hlen
          rw [heq2] at hlen2
          simp only [List.length_cons] at hlen hlen2
          simp only [List.length_cons]
          omega
        case h_2 => exact absurd h (by simp)
      case h_3 => exact absurd h (by simp)

theorem tmDesc_rest_lt (l g rest : List Char) (h : tmDesc l = some (g, rest)) :
    rest.length < l.length := by
  unfold tmDesc at h
  split at h
  case h_2 => exact absurd h (by simp)
  case h_1 x rest0 =>
    split at h
    case h_2 => exact absurd h (by simp)
    case h_1 r2 heq =>
      split at h
      · exact absurd h (by simp)
      · split at h
        case h_2 => exact absurd h (by simp)
        case h_1 r4 heq2 =>
          split at h
          · exact absurd h (by simp)
          · injection h with h1
            injection h1 with ha hb
            subst hb
            have hlen : (rest0.dropWhile embChar).length ≤ rest0.length :=
              length_dropWhile_le2 _ _
            have hlen2 : (r2.dropWhile notRB).length ≤ r2.length :=
              length_dropWhile_le2 _ _
            rw [heq] at hlen
            rw [heq2] at hlen2
            simp only [List.length_cons] at hlen hlen2
            simp only [List.length_cons]
            omega

theorem scanG2_len (l g r : List Char) (h : scanG2 l = some (g, r)) :
    g.length + 2 + r.length = l.length := by
  induction l generalizing g r with
  | nil => exact absurd h (by simp [scanG2])
  | cons c cs ih =>
    unfold scanG2 at h
    split at h
    case h_1 r1 heq =>
      injection h with h1
      injection h1 with ha hb
      subst ha; subst hb
      have := congrArg List.length heq
      simp at this ⊢
      omega
    case h_2 c2 r2 hnp heq =>
      split at h
      · exact absurd h (by simp)
      · cases hs : scanG2 r2 with
        | none => rw [hs] at h; exact absurd h (by simp)
        | some p =>
          obtain ⟨gg, rr⟩ := p
          rw [hs] at h
          simp only [Option.map] at h
          injection h with h1
          injection h1 with ha hb
          subst hb
          injection heq with hc hd
          subst hc; subst hd
          have := ih gg rr (by rw [hs])
          subst ha
          simp only [List.length_cons]
          omega
    case h_3 => exact absurd h (by simp)

theorem scanG1_len_aux : ∀ (n : Nat) (l : List Char), l.length ≤ n →
    ∀ g1 g2 r, scanG1 l = some (g1, g2, r) →
    g1.length + 2 + g2.length + 2 + r.length = l.length := by
  intro n
  induction n with
  | zero =>
    intro l hl g1 g2 r h
    have : l = [] := List.eq_nil_of_length_eq_zero (Nat.le_zero.mp hl)
    subst this
    exact absurd h (by simp [scanG1])
  | succ n ih =>
    intro l hl g1 g2 r h
    cases l with
    | nil => exact absurd h (by simp [scanG1])
    | cons c cs =>
      unfold scanG1 at h
      split at h
      case h_1 r0 heq =>
        injection heq with hd he
        subst hd; subst he
        cases hs : scanG2 r0 with
        | some p =>
          obtain ⟨gg, rr⟩ := p
          rw [hs] at h
          injection h with h1
          injection h1 with ha h2
          injection h2 with hb hc
          subst ha; subst hb; subst hc
          have hlen := scanG2_len r0 gg rr (by rw [hs])
          simp only [List.length_cons, List.length_nil]
          omega
        | none =>
          rw [hs] at h
          cases hs1 : scanG1 r0 with
          | none => rw [hs1] at h; exact absurd h (by simp)
          | some q =>
            obtain ⟨qg1, qg2, qr⟩ := q
            rw [hs1] at h
            simp only [Option.map] at h
            injection h with h1
            injection h1 with ha h2
            injection h2 with hb hc
            subst ha; subst hb; subst hc
            have hr0 : r0.length ≤ n := by
              simp only [List.length_cons] at hl
              omega
            have := ih r0 hr0 qg1 qg2 qr (by rw [hs1])
            simp only [List.length_cons]
            omega
      case h_2 cc rr hnp heq =>
        injection heq with hd he
        subst hd; subst he
        split at h
        · exact absurd h (by simp)
        · cases hs : scanG1 cs with
          | none => rw [hs] at h; exact absurd h (by simp)
          | some q =>
            obtain ⟨qg1, qg2, qr⟩ := q
            rw [hs] at h
            simp only [Option.map] at h
            injection h with h1
            injection h1 with ha h2
            injection h2 with hb hc
            subst hb; subst hc; subst ha
            have hr : cs.length ≤ n := by
              simp only [List.length_cons] at hl
              omega
            have := ih cs hr qg1 qg2 qr (by rw [hs])
            simp only [List.length_cons]
            omega
      case h_3 => exact absurd h (by simp)

theorem scanG1_len (l g1 g2 r : List Char) (h : scanG1 l = some (g1, g2, r)) :
    g1.length + 2 + g2.length + 2 + r.length = l.length :=
  scanG1_len_aux l.length l (le_refl _) g1 g2 r h

theorem tmFile_rest_lt (nodes : List Char → Option (List Char)) (l g rest : List Char)
    (h : tmFile nodes l = some (g, rest)) : rest.length < l.length := by
  unfold tmFile at h
  split at h
  case h_2 => exact absurd h (by simp)
  case h_1 x rest0 =>
    cases hs : scanG1 rest0 with
    | none => rw [hs] at h; exact absurd h (by simp)
    | some q =>
      obtain ⟨qg1, qg2, qr⟩ := q
      rw [hs] at h
      simp only [Option.map] at h
      injection h with h1
      injection h1 with ha hb
      subst hb
      have := scanG1_len rest0 qg1 qg2 qr (by rw [hs])
      simp only [List.length_cons]
      omega

/-! ### Positions at which a matcher cannot fire -/

theorem tmWiki_none_head (c : Char) (cs : List Char) (h : ¬c = '[') :
    tmWiki (c :: cs) = none := by
  unfold tmWiki
  split
  case h_1 x rest heq =>
    injection heq with h1 h2
    exact absurd h1 h
  case h_2 => rfl

theorem tmWiki_none_two (c : Char) (cs : List Char) (h : ¬c = '[') :
    tmWiki ('[' :: c :: cs) = none := by
  unfold tmWiki
  split
  case h_1 x rest heq =>
    injection heq with h1 h2
    injection h2 with h3 h4
    exact absurd h3 h
  case h_2 => rfl

theorem tmSimple_none_head (c : Char) (cs : List Char) (h : ¬c = '[') :
    tmSimple (c :: cs) = none := by
  unfold tmSimple
  rw [tmWiki_none_head c cs h]
  rfl

theorem tmSimple_none_two (c : Char) (cs : List Char) (h : ¬c = '[') :
    tmSimple ('[' :: c :: cs) = none := by
  unfold tmSimple
  rw [tmWiki_none_two c cs h]
  rfl

theorem tmBare_none_head (nodes : List Char → Option (List Char)) (c : Char)
    (cs : List Char) (h : ¬c = '[') : tmBare nodes (c :: cs) = none := by
  unfold tmBare
  rw [tmWiki_none_head c cs h]
  rfl

theorem tmBare_none_two (nodes : List Char → Option (List Char)) (c : Char)
    (cs : List Char) (h : ¬c = '[') : tmBare nodes ('[' :: c :: cs) = none := by
  unfold tmBare
  rw [tmWiki_none_two c cs h]
  rfl

theorem tmEmbed_none_head (c : Char) (cs : List Char) (h : ¬c = '!') :
    tmEmbed (c :: cs) = none := by
  unfold tmEmbed
  split
  case h_1 x rest heq =>
    injection heq with h1 h2
    exact absurd h1 h
  case h_2 => rfl

theorem tmDesc_none_head (c : Char) (cs : List Char) (h : ¬c = '[') :
    tmDesc (c :: cs) = none := by
  unfold tmDesc
  split
  case h_1 x rest heq =>
    injection heq with h1 h2
    exact absurd h1 h
  case h_2 => rfl

theorem tmDesc_none_two (c : Char) (cs : List Char) (h : ¬c = '[') :
    tmDesc ('[' :: c :: cs) = none := by
  unfold tmDesc
  split
  case h_1 x rest heq =>
    injection heq with h1 h2
    injection h2 with h3 h4
    exact absurd h3 h
  case h_2 => rfl

theorem tmFile_none_head (nodes : List Char → Option (List Char)) (c : Char)
    (cs : List Char) (h : ¬c = '[') : tmFile nodes (c :: cs) = none := by
  unfold tmFile
  split
  case h_1 x rest heq =>
    injection heq with h1 h2
    exact absurd h1 h
  case h_2 => rfl

theorem tmFile_none_two (nodes : List Char → Option (List Char)) (c : Char)
    (cs : List Char) (h : ¬c = '[') : tmFile nodes ('[' :: c :: cs) = none := by
  unfold tmFile
  split
  case h_1 x rest heq =>
    injection heq with h1 h2
    injection h2 with h3 h4
    exact absurd h3 h
  case h_2 => rfl

theorem tmFile_none_three (nodes : List Char → Option (List Char)) (c : Char)
    (cs : List Char) (h : ¬c = 'f') : tmFile nodes ('[' :: '[' :: c :: cs) = none := by
  unfold tmFile
  split
  case h_1 x rest heq =>
    injection heq with h1 h2
    injection h2 with h3 h4
    injection h4 with h5 h6
    exact absurd h5 h
  case h_2 => rfl

/-! ### Tail facts for the shape predicates -/

theorem hasPair_tail (c : Char) (cs : List Char) (h : hasPair (c :: cs) = false) :
    hasPair cs = false := by
  unfold hasPair at h
  split at h
  · exact absurd h (by simp)
  case h_2 x rest hnp heq =>
    injection heq with h1 h2
    rw [h2]
    exact h
  case h_3 heq =>
    exact absurd heq (by simp)

theorem hasLL_tail (c : Char) (cs : List Char) (h : hasLL (c :: cs) = false) :
    hasLL cs = false := by
  unfold hasLL at h
  split at h
  · exact absurd h (by simp)
  case h_2 x rest hnp heq =>
    injection heq with h1 h2
    rw [h2]
    exact h
  case h_3 heq =>
    exact absurd heq (by simp)

theorem hasBangLL_tail (c : Char) (cs : List Char) (h : hasBangLL (c :: cs) = false) :
    hasBangLL cs = false := by
  unfold hasBangLL at h
  split at h
  · exact absurd h (by simp)
  case h_2 x rest hnp heq =>
    injection heq with h1 h2
    rw [h2]
    exact h
  case h_3 heq =>
    exact absurd heq (by simp)

/-! ### Substitutions that cannot fire leave the text unchanged -/

theorem scanG1_none (l : List Char) (h : hasPair l = false) : scanG1 l = none := by
  induction l with
  | nil => rfl
  | cons c cs ih =>
    unfold scanG1
    split
    case h_1 r heq =>
      exfalso
      injection heq with h1 h2
      subst h1; subst h2
      simp [hasPair] at h
    case h_2 cc rr hnp heq =>
      injection heq with h1 h2
      subst h1; subst h2
      rw [ih (hasPair_tail c cs h)]
      simp
    case h_3 heq =>
      exact absurd heq (by simp)

theorem fileSub_eq_self_noPair (nodes : List Char → Option (List Char)) (l : List Char)
    (h : hasPair l = false) : fileSub nodes l = l := by
  induction l with
  | nil => rfl
  | cons c cs ih =>
    have hn : tmFile nodes (c :: cs) = none := by
      unfold tmFile
      split
      case h_1 x rest heq =>
        have h2 : hasPair rest = false := by
          rw [heq] at h
          exact hasPair_tail _ _ (hasPair_tail _ _ (hasPair_tail _ _ (hasPair_tail _ _
            (hasPair_tail _ _ (hasPair_tail _ _ (hasPair_tail _ _ h))))))
        rw [scanG1_none rest h2]
        rfl
      case h_2 => rfl
    rw [show fileSub nodes (c :: cs) = c :: fileSub nodes cs from
      reSub_cons_none _ _ _ hn, ih (hasPair_tail c cs h)]

theorem tmFile_none_noLL (nodes : List Char → Option (List Char)) (c : Char)
    (cs : List Char) (h : hasLL (c :: cs) = false) : tmFile nodes (c :: cs) = none := by
  unfold tmFile
  split
  case h_1 x rest heq =>
    exfalso
    rw [heq] at h
    simp [hasLL] at h
  case h_2 => rfl

theorem tmWiki_none_noLL (c : Char) (cs : List Char) (h : hasLL (c :: cs) = false) :
    tmWiki (c :: cs) = none := by
  unfold tmWiki
  split
  case h_1 x rest heq =>
    exfalso
    rw [heq] at h
    simp [hasLL] at h
  case h_2 => rfl

theorem fileSub_eq_self_noLL (nodes : List Char → Option (List Char)) (l : List Char)
    (h : hasLL l = false) : fileSub nodes l = l := by
  induction l with
  | nil => rfl
  | cons c cs ih =>
    rw [show fileSub nodes (c :: cs) = c :: fileSub nodes cs from
      reSub_cons_none _ _ _ (tmFile_none_noLL nodes c cs h), ih (hasLL_tail c cs h)]

theorem bareSub_eq_self_noLL (nodes : List Char → Option (List Char)) (l : List Char)
    (h : hasLL l = false) : bareSub nodes l = l := by
  induction l with
  | nil => rfl
  | cons c cs ih =>
    have hn : tmBare nodes (c :: cs) = none := by
      unfold tmBare
      rw [tmWiki_none_noLL c cs h]
      rfl
    rw [show bareSub nodes (c :: cs) = c :: bareSub nodes cs from
      reSub_cons_none _ _ _ hn, ih (hasLL_tail c cs h)]

/-- A text with no two adjacent open brackets is left unchanged by the whole
relink pass. -/
theorem relink_eq_self_noLL (nodes : List Char → Option (List Char)) (l : List Char)
    (h : hasLL l = false) : relink nodes l = l := by
  unfold relink
  rw [fileSub_eq_self_noLL nodes l h, bareSub_eq_self_noLL nodes l h]

theorem tmEmbed_none_noBang (c : Char) (cs : List Char)
    (h : hasBangLL (c :: cs) = false) : tmEmbed (c :: cs) = none := by
  unfold tmEmbed
  split
  case h_1 x rest heq =>
    exfalso
    rw [heq] at h
    simp [hasBangLL] at h
  case h_2 => rfl

theorem embedSub_eq_self (l : List Char) (h : hasBangLL l = false) :
    embedSub l = l := by
  induction l with
  | nil => rfl
  | cons c cs ih =>
    rw [show embedSub (c :: cs) = c :: embedSub cs from
      reSub_cons_none _ _ _ (tmEmbed_none_noBang c cs h), ih (hasBangLL_tail c cs h)]

theorem tmDesc_some_pipe (l : List Char) (p : List Char × List Char)
    (h : tmDesc l = some p) : '|' ∈ l := by
  unfold tmDesc at h
  split at h
  case h_2 => exact absurd h (by simp)
  case h_1 x rest =>
    split at h
    case h_2 => exact absurd h (by simp)
    case h_1 r2 hdw =>
      have hs : rest.dropWhile embChar <:+ rest := List.dropWhile_suffix embChar
      have hin : '|' ∈ rest.dropWhile embChar := by
        rw [hdw]
        exact List.mem_cons_self _ _
      have hmem : '|' ∈ rest := hs.subset hin
      exact List.mem_cons_of_mem _ (List.mem_cons_of_mem _ hmem)

theorem descSub_eq_self (l : List Char) (h : '|' ∉ l) : descSub l = l := by
  induction l with
  | nil => rfl
  | cons c cs ih =>
    have hn : tmDesc (c :: cs) = none := by
      cases hd : tmDesc (c :: cs) with
      | none => rfl
      | some p => exact absurd (tmDesc_some_pipe _ p hd) h
    rw [show descSub (c :: cs) = c :: descSub cs from reSub_cons_none _ _ _ hn,
      ih (fun hm => h (List.mem_cons_of_mem c hm))]

/-! ### Walking over bracket-free stretches -/

theorem bareSub_skip (nodes : List Char → Option (List Char)) (x t : List Char)
    (hx : ∀ c ∈ x, ¬c = '[') : bareSub nodes (x ++ t) = x ++ bareSub nodes t :=
  reSub_skip _ x t (fun c hc cs => tmBare_none_head nodes c cs (hx c hc))

theorem fileSub_skip (nodes : List Char → Option (List Char)) (x t : List Char)
    (hx : ∀ c ∈ x, ¬c = '[') : fileSub nodes (x ++ t) = x ++ fileSub nodes t :=
  reSub_skip _ x t (fun c hc cs => tmFile_none_head nodes c cs (hx c hc))

theorem simpleSub_skip (x t : List Char) (hx : ∀ c ∈ x, ¬c = '[') :
    simpleSub (x ++ t) = x ++ simpleSub t :=
  reSub_skip _ x t (fun c hc cs => tmSimple_none_head c cs (hx c hc))

/-! ### Computing a wiki match at its position -/

theorem tmWiki_at (g r2 : List Char) (hg : ∀ c ∈ g, wikiChar c = true) (hne : g ≠ []) :
    tmWiki ('[' :: '[' :: (g ++ ']' :: ']' :: r2)) = some (g, r2) := by
  have hdw : (g ++ ']' :: ']' :: r2).dropWhile wikiChar = ']' :: ']' :: r2 := by
    rw [dropWhile_append_all _ _ _ hg]
    simp [List.dropWhile_cons, wikiChar]
  have htw : (g ++ ']' :: ']' :: r2).takeWhile wikiChar = g := by
    rw [takeWhile_append_all _ _ _ hg]
    simp [List.takeWhile_cons, wikiChar]
  simp only [tmWiki]
  rw [hdw, htw]
  simp [hne]

/-! ### Walking the file-link scanners over harmless stretches -/

theorem scanG2_cons_ne (c : Char) (cs : List Char) (h1 : ¬c = ']') :
    scanG2 (c :: cs) =
      if c = '\n' then none else (scanG2 cs).map (fun g => (c :: g.1, g.2)) := by
  conv_lhs => unfold scanG2
  split
  case h_1 r heq =>
    injection heq with ha hb
    exact absurd ha h1
  case h_2 cc rr hnp heq =>
    injection heq with ha hb
    subst ha
    rw [hb]
  case h_3 heq =>
    exact absurd heq (by simp)

theorem scanG1_cons_ne (c : Char) (cs : List Char) (h1 : ¬c = ']') :
    scanG1 (c :: cs) =
      if c = '\n' then none else (scanG1 cs).map (fun g => (c :: g.1, g.2.1, g.2.2)) := by
  conv_lhs => unfold scanG1
  split
  case h_1 r heq =>
    injection heq with ha hb
    exact absurd ha h1
  case h_2 cc rr hnp heq =>
    injection heq with ha hb
    subst ha
    rw [hb]
  case h_3 heq =>
    exact absurd heq (by simp)

theorem scanG2_skip (x l : List Char) (hx : ∀ c ∈ x, ¬c = ']' ∧ ¬c = '\n') :
    scanG2 (x ++ l) = (scanG2 l).map (fun g => (x ++ g.1, g.2)) := by
  induction x with
  | nil => cases hs : scanG2 l <;> simp [hs]
  | cons c x2 ih =>
    obtain ⟨hc1, hc2⟩ := hx c (List.mem_cons_self c x2)
    rw [List.cons_append, scanG2_cons_ne c _ hc1, if_neg hc2,
      ih (fun d hd => hx d (List.mem_cons_of_mem c hd))]
    cases hs : scanG2 l <;> simp [hs]

theorem scanG1_skip (x l : List Char) (hx : ∀ c ∈ x, ¬c = ']' ∧ ¬c = '\n') :
    scanG1 (x ++ l) = (scanG1 l).map (fun g => (x ++ g.1, g.2.1, g.2.2)) := by
  induction x with
  | nil => cases hs : scanG1 l <;> simp [hs]
  | cons c x2 ih =>
    obtain ⟨hc1, hc2⟩ := hx c (List.mem_cons_self c x2)
    rw [List.cons_append, scanG1_cons_ne c _ hc1, if_neg hc2,
      ih (fun d hd => hx d (List.mem_cons_of_mem c hd))]
    cases hs : scanG1 l <;> simp [hs]

theorem scanG1_at_pair (r g2 t : List Char) (h : scanG2 r = some (g2, t)) :
    scanG1 (']' :: '[' :: r) = some ([], g2, t) := by
  simp only [scanG1]
  rw [h]

/-! ### Matches and non-matches at link positions -/

theorem tmSimple_at (g r2 : List Char) (hg : ∀ c ∈ g, wikiChar c = true) (hne : g ≠ []) :
    tmSimple ('[' :: '[' :: (g ++ ']' :: ']' :: r2)) = some (simpleRepl g, r2) := by
  unfold tmSimple
  rw [tmWiki_at g r2 hg hne]
  rfl

theorem tmBare_at (nodes : List Char → Option (List Char)) (g r2 : List Char)
    (hg : ∀ c ∈ g, wikiChar c = true) (hne : g ≠ []) :
    tmBare nodes ('[' :: '[' :: (g ++ ']' :: ']' :: r2)) = some (bareRepl nodes g, r2) := by
  unfold tmBare
  rw [tmWiki_at g r2 hg hne]
  rfl

theorem tmWiki_none_after (rest Y : List Char) (c : Char)
    (hdw : rest.dropWhile wikiChar = ']' :: c :: Y) (hc : ¬c = ']') :
    tmWiki ('[' :: '[' :: rest) = none := by
  simp only [tmWiki]
  rw [hdw]
  split
  case h_1 r2 heq =>
    injection heq with h1 h2
    injection h2 with h3 h4
    exact absurd h3 hc
  case h_2 => rfl

theorem tmBare_none_after (nodes : List Char → Option (List Char)) (rest Y : List Char)
    (c : Char) (hdw : rest.dropWhile wikiChar = ']' :: c :: Y) (hc : ¬c = ']') :
    tmBare nodes ('[' :: '[' :: rest) = none := by
  unfold tmBare
  rw [tmWiki_none_after rest Y c hdw hc]
  rfl

theorem tmSimple_none_after (rest Y : List Char) (c : Char)
    (hdw : rest.dropWhile wikiChar = ']' :: c :: Y) (hc : ¬c = ']') :
    tmSimple ('[' :: '[' :: rest) = none := by
  unfold tmSimple
  rw [tmWiki_none_after rest Y c hdw hc]
  rfl

/-! ### Cons-step wrappers for the five substitutions -/

theorem embedSub_cons_none (c : Char) (cs : List Char) (h : tmEmbed (c :: cs) = none) :
    embedSub (c :: cs) = c :: embedSub cs := reSub_cons_none _ _ _ h

theorem embedSub_cons_some (c : Char) (cs r rest : List Char)
    (h : tmEmbed (c :: cs) = some (r, rest)) :
    embedSub (c :: cs) = r ++ embedSub rest :=
  reSub_cons_some _ tmEmbed_rest_lt _ _ _ _ h

theorem descSub_cons_none (c : Char) (cs : List Char) (h : tmDesc (c :: cs) = none) :
    descSub (c :: cs) = c :: descSub cs := reSub_cons_none _ _ _ h

theorem descSub_cons_some (c : Char) (cs r rest : List Char)
    (h : tmDesc (c :: cs) = some (r, rest)) :
    descSub (c :: cs) = r ++ descSub rest :=
  reSub_cons_some _ tmDesc_rest_lt _ _ _ _ h

theorem simpleSub_cons_none (c : Char) (cs : List Char) (h : tmSimple (c :: cs) = none) :
    simpleSub (c :: cs) = c :: simpleSub cs := reSub_cons_none _ _ _ h

theorem simpleSub_cons_some (c : Char) (cs r rest : List Char)
    (h : tmSimple (c :: cs) = some (r, rest)) :
    simpleSub (c :: cs) = r ++ simpleSub rest :=
  reSub_cons_some _ tmSimple_rest_lt _ _ _ _ h

theorem fileSub_cons_none (nodes : List Char → Option (List Char)) (c : Char)
    (cs : List Char) (h : tmFile nodes (c :: cs) = none) :
    fileSub nodes (c :: cs) = c :: fileSub nodes cs := reSub_cons_none _ _ _ h

theorem fileSub_cons_some (nodes : List Char → Option (List Char)) (c : Char)
    (cs r rest : List Char) (h : tmFile nodes (c :: cs) = some (r, rest)) :
    fileSub nodes (c :: cs) = r ++ fileSub nodes rest :=
  reSub_cons_some _ (tmFile_rest_lt nodes) _ _ _ _ h

theorem bareSub_cons_none (nodes : List Char → Option (List Char)) (c : Char)
    (cs : List Char) (h : tmBare nodes (c :: cs) = none) :
    bareSub nodes (c :: cs) = c :: bareSub nodes cs := reSub_cons_none _ _ _ h

theorem bareSub_cons_some (nodes : List Char → Option (List Char)) (c : Char)
    (cs r rest : List Char) (h : tmBare nodes (c :: cs) = some (r, rest)) :
    bareSub nodes (c :: cs) = r ++ bareSub nodes rest :=
  reSub_cons_some _ (tmBare_rest_lt nodes) _ _ _ _ h

/-- The bare-link pass leaves a whole identifier reference untouched, as long
as its identifier consists of link-name characters and its label has no
brackets. -/
theorem bareSub_idref (nodes : List Char → Option (List Char)) (X L : List Char)
    (hX : ∀ c ∈ X, wikiChar c = true) (hL : ∀ c ∈ L, ¬c = '[' ∧ ¬c = ']') :
    bareSub nodes ('[' :: '[' :: 'i' :: 'd' :: ':' :: (X ++ ']' :: '[' :: (L ++ [']', ']']))) =
      '[' :: '[' :: 'i' :: 'd' :: ':' :: (X ++ ']' :: '[' :: (L ++ [']', ']'])) := by
  have hXn : ∀ c ∈ X, ¬c = '[' := by
    intro c hc he
    have h := hX c hc
    subst he
    exact absurd h (by decide)
  have hLn : ∀ c ∈ L, ¬c = '[' := fun c hc => (hL c hc).1
  have hdw : List.dropWhile wikiChar ('i' :: 'd' :: ':' :: (X ++ ']' :: '[' :: (L ++ [']', ']'])))
      = ']' :: '[' :: (L ++ [']', ']']) := by
    show List.dropWhile wikiChar (('i' :: 'd' :: ':' :: X) ++ ']' :: '[' :: (L ++ [']', ']'])) = _
    rw [dropWhile_append_all]
    · simp [List.dropWhile_cons, wikiChar]
    · intro c hc
      simp only [List.mem_cons] at hc
      rcases hc with h | h | h | h
      · rw [h]; rfl
      · rw [h]; rfl
      · rw [h]; rfl
      · exact hX c h
  have h0 : tmBare nodes
      ('[' :: '[' :: ('i' :: 'd' :: ':' :: (X ++ ']' :: '[' :: (L ++ [']', ']'])))) = none :=
    tmBare_none_after nodes _ _ '[' hdw (by decide)
  have htailL : tmBare nodes ('[' :: (L ++ [']', ']'])) = none := by
    cases L with
    | nil => exact tmBare_none_two nodes ']' _ (by decide)
    | cons d L2 =>
      rw [List.cons_append]
      exact tmBare_none_two nodes d _ (hLn d (List.mem_cons_self d L2))
  have hend : bareSub nodes [']', ']'] = [']', ']'] := by
    rw [show ([']', ']'] : List Char) = ']' :: [']'] from rfl,
      bareSub_cons_none nodes _ _ (tmBare_none_head nodes ']' _ (by decide)),
      bareSub_cons_none nodes _ _ (tmBare_none_head nodes ']' _ (by decide))]
    rfl
  rw [bareSub_cons_none nodes _ _ h0,
    bareSub_cons_none nodes _ _ (tmBare_none_two nodes 'i' _ (by decide)),
    bareSub_cons_none nodes _ _ (tmBare_none_head nodes 'i' _ (by decide)),
    bareSub_cons_none nodes _ _ (tmBare_none_head nodes 'd' _ (by decide)),
    bareSub_cons_none nodes _ _ (tmBare_none_head nodes ':' _ (by decide)),
    bareSub_skip nodes X _ hXn,
    bareSub_cons_none nodes _ _ (tmBare_none_head nodes ']' _ (by decide)),
    bareSub_cons_none nodes _ _ htailL,
    bareSub_skip nodes L _ hLn, hend]

/-- The file-link pass leaves a whole identifier reference untouched when
identifier and label contain no open bracket. -/
theorem fileSub_idref (nodes : List Char → Option (List Char)) (X L : List Char)
    (hX : ∀ c ∈ X, ¬c = '[') (hL : ∀ c ∈ L, ¬c = '[') :
    fileSub nodes ('[' :: '[' :: 'i' :: 'd' :: ':' :: (X ++ ']' :: '[' :: (L ++ [']', ']']))) =
      '[' :: '[' :: 'i' :: 'd' :: ':' :: (X ++ ']' :: '[' :: (L ++ [']', ']'])) := by
  have htailL : tmFile nodes ('[' :: (L ++ [']', ']'])) = none := by
    cases L with
    | nil => exact tmFile_none_two nodes ']' _ (by decide)
    | cons d L2 =>
      rw [List.cons_append]
      exact tmFile_none_two nodes d _ (hL d (List.mem_cons_self d L2))
  have hend : fileSub nodes [']', ']'] = [']', ']'] := by
    rw [show ([']', ']'] : List Char) = ']' :: [']'] from rfl,
      fileSub_cons_none nodes _ _ (tmFile_none_head nodes ']' _ (by decide)),
      fileSub_cons_none nodes _ _ (tmFile_none_head nodes ']' _ (by decide))]
    rfl
  rw [fileSub_cons_none nodes _ _ (tmFile_none_three nodes 'i' _ (by decide)),
    fileSub_cons_none nodes _ _ (tmFile_none_two nodes 'i' _ (by decide)),
    fileSub_cons_none nodes _ _ (tmFile_none_head nodes 'i' _ (by decide)),
    fileSub_cons_none nodes _ _ (tmFile_none_head nodes 'd' _ (by decide)),
    fileSub_cons_none nodes _ _ (tmFile_none_head nodes ':' _ (by decide)),
    fileSub_skip nodes X _ hX,
    fileSub_cons_none nodes _ _ (tmFile_none_head nodes ']' _ (by decide)),
    fileSub_cons_none nodes _ _ htailL,
    fileSub_skip nodes L _ hL, hend]

/-! ### hasPair over bracket-free stretches -/

theorem hasPair_cons_ne (c : Char) (cs : List Char) (h : ¬c = ']') :
    hasPair (c :: cs) = hasPair cs := by
  conv_lhs => unfold hasPair
  split
  case h_1 x heq =>
    injection heq with h1 h2
    exact absurd h1 h
  case h_2 x rest hnp heq =>
    injection heq with h1 h2
    rw [h2]
  case h_3 heq =>
    exact absurd heq (by simp)

theorem hasPair_append_no_rb (l t : List Char) (hl : ∀ c ∈ l, ¬c = ']')
    (ht : hasPair t = false) : hasPair (l ++ t) = false := by
  induction l with
  | nil => exact ht
  | cons c l2 ih =>
    rw [List.cons_append, hasPair_cons_ne c _ (hl c (List.mem_cons_self c l2))]
    exact ih (fun d hd => hl d (List.mem_cons_of_mem c hd))

/-- Pass 2 on a document that is one bare link with a plain name: the file
pass cannot fire, the bare pass fires at position zero with group `t`. -/
theorem relink_bare (nodes : List Char → Option (List Char)) (t : List Char)
    (ht : ∀ c ∈ t, wikiChar c = true) (hne : t ≠ []) :
    relink nodes ('[' :: '[' :: (t ++ [']', ']'])) = bareRepl nodes t := by
  have htn : ∀ c ∈ t, ¬c = ']' := by
    intro c hc he
    have h := ht c hc
    subst he
    exact absurd h (by decide)
  have hnp : hasPair ('[' :: '[' :: (t ++ [']', ']'])) = false := by
    rw [hasPair_cons_ne '[' _ (by decide), hasPair_cons_ne '[' _ (by decide)]
    exact hasPair_append_no_rb t _ htn (by decide)
  unfold relink
  rw [fileSub_eq_self_noPair nodes _ hnp,
    bareSub_cons_some nodes _ _ _ _ (tmBare_at nodes t [] ht hne)]
  simp [bareSub, reSub, subF]

/-! ### hasBangLL over open-bracket-free text -/

theorem hasBangLL_cons_ne (c : Char) (cs : List Char) (h : ¬c = '!') :
    hasBangLL (c :: cs) = hasBangLL cs := by
  conv_lhs => unfold hasBangLL
  split
  case h_1 x heq =>
    injection heq with h1 h2
    exact absurd h1 h
  case h_2 x rest hnp heq =>
    injection heq with h1 h2
    rw [h2]
  case h_3 heq =>
    exact absurd heq (by simp)

theorem hasBangLL_no_open (l : List Char) (h : ∀ c ∈ l, ¬c = '[') :
    hasBangLL l = false := by
  induction l with
  | nil => rfl
  | cons c cs ih =>
    have hstep : hasBangLL (c :: cs) = hasBangLL cs := by
      conv_lhs => unfold hasBangLL
      split
      case h_1 x heq =>
        exfalso
        injection heq with h1 h2
        have hm : '[' ∈ cs := by
          rw [h2]
          exact List.mem_cons_self _ _
        exact h '[' (List.mem_cons_of_mem c hm) rfl
      case h_2 x rest hnp heq =>
        injection heq with h1 h2
        rw [h2]
      case h_3 heq =>
        exact absurd heq (by simp)
    rw [hstep]
    exact ih (fun d hd => h d (List.mem_cons_of_mem c hd))

/-- Pass 1 on a document that is one bare wiki link with a plain name:
the embed and labeled-link passes cannot fire, the simple pass fires at
position zero. -/
theorem fixLinks_bare (p : List Char) (hp : ∀ c ∈ p, wikiChar c = true) (hne : p ≠ []) :
    fixLinks ('[' :: '[' :: (p ++ [']', ']'])) = simpleRepl p := by
  have hpn : ∀ c ∈ p, ¬c = '[' := by
    intro c hc he
    have h := hp c hc
    subst he
    exact absurd h (by decide)
  have hppipe : ∀ c ∈ p, ¬c = '|' := by
    intro c hc he
    have h := hp c hc
    subst he
    exact absurd h (by decide)
  have hbang : hasBangLL ('[' :: '[' :: (p ++ [']', ']'])) = false := by
    rw [hasBangLL_cons_ne '[' _ (by decide), hasBangLL_cons_ne '[' _ (by decide)]
    apply hasBangLL_no_open
    intro c hc
    rcases List.mem_append.mp hc with h | h
    · exact hpn c h
    · intro he
      subst he
      simp at h
  have hpipe : ('|' : Char) ∉ '[' :: '[' :: (p ++ [']', ']']) := by
    intro hm
    simp only [List.mem_cons, List.mem_append] at hm
    rcases hm with h | h | h | h
    · exact absurd h (by decide)
    · exact absurd h (by decide)
    · exact hppipe '|' h rfl
    · exact absurd h (by decide)
  unfold fixLinks
  rw [embedSub_eq_self _ hbang, descSub_eq_self _ hpipe,
    simpleSub_cons_some _ _ _ _ (tmSimple_at p [] hp hne)]
  simp [simpleSub, reSub, subF]

/-- A file link with sane group contents is matched at its position, with
the two lazy groups capturing exactly the raw path and the label. -/
theorem tmFile_at (nodes : List Char → Option (List Char)) (raw label t : List Char)
    (hraw : ∀ c ∈ raw, ¬c = ']' ∧ ¬c = '\n') (hlabel : ∀ c ∈ label, ¬c = ']' ∧ ¬c = '\n') :
    tmFile nodes
      ('[' :: '[' :: 'f' :: 'i' :: 'l' :: 'e' :: ':' ::
        (raw ++ ']' :: '[' :: (label ++ ']' :: ']' :: t))) =
      some (fileRepl nodes raw label, t) := by
  have hg2 : scanG2 (label ++ ']' :: ']' :: t) = some (label, t) := by
    rw [scanG2_skip label _ hlabel]
    simp [scanG2]
  have hg1 : scanG1 (raw ++ ']' :: '[' :: (label ++ ']' :: ']' :: t)) =
      some (raw, label, t) := by
    rw [scanG1_skip raw _ hraw, scanG1_at_pair _ label t hg2]
    simp
  simp only [tmFile]
  rw [hg1]
  rfl

/-! ### The stem of a dot-free name with the target extension -/

theorem splitSlashAux_no (l cur : List Char) (h : ∀ c ∈ l, ¬c = '/') :
    splitSlashAux cur l = [cur.reverse ++ l] := by
  induction l generalizing cur with
  | nil => simp [splitSlashAux]
  | cons c l2 ih =>
    unfold splitSlashAux
    rw [if_neg (h c (List.mem_cons_self c l2)),
      ih (c :: cur) (fun d hd => h d (List.mem_cons_of_mem c hd))]
    simp

theorem rfindDot_append_ext (p : List Char) (h : '.' ∉ p) :
    rfindDot (p ++ chars ".org") = some p.length := by
  induction p with
  | nil => decide
  | cons c p2 ih =>
    have hc : ¬c = '.' := fun he => h (he ▸ List.mem_cons_self c p2)
    rw [List.cons_append]
    conv_lhs => unfold rfindDot
    rw [ih (fun hm => h (List.mem_cons_of_mem c hm))]
    simp

theorem pyStem_org (p : List Char) (hne : p ≠ []) (hdot : '.' ∉ p) (hslash : '/' ∉ p) :
    pyStem (p ++ chars ".org") = p := by
  have hsl : ∀ c ∈ p ++ chars ".org", ¬c = '/' := by
    intro c hc he
    subst he
    rcases List.mem_append.mp hc with h | h
    · exact hslash h
    · exact absurd h (by decide)
  have hname : pyName (p ++ chars ".org") = p ++ chars ".org" := by
    unfold pyName splitSlash
    rw [splitSlashAux_no _ _ hsl]
    have hnonempty : ((p ++ chars ".org").isEmpty = false) := by
      cases hp : p ++ chars ".org" with
      | nil =>
        exfalso
        have := congrArg List.length hp
        simp [chars] at this
      | cons a as => rfl
    have hnotdot : ((p ++ chars ".org") == ['.']) = false := by
      cases hb : (p ++ chars ".org") == ['.'] with
      | false => rfl
      | true =>
        exfalso
        have heq : p ++ chars ".org" = ['.'] := by
          exact eq_of_beq hb
        have := congrArg List.length heq
        simp [chars] at this
    simp [List.filter, hnonempty, hnotdot]
  unfold pyStem
  rw [hname, rfindDot_append_ext p hdot]
  have hlen : (p ++ chars ".org").length = p.length + 4 := by simp [chars]
  have hcond : 0 < p.length ∧ p.length < (p ++ chars ".org").length - 1 := by
    constructor
    · exact List.length_pos.mpr hne
    · rw [hlen]; omega
  show (if 0 < p.length ∧ p.length < (p ++ chars ".org").length - 1 then
      List.take p.length (p ++ chars ".org") else p ++ chars ".org") = p
  rw [if_pos hcond]
  exact List.take_left p (chars ".org")

/-! ### The registry as a last-writer-wins map -/

theorem buildNodes_last (entries : List (List Char × List Char)) (k : List Char) :
    buildNodes entries k =
      ((entries.filter (fun e => normKey e.1 == k)).getLast?).map Prod.snd := by
  induction entries using List.reverseRecOn with
  | nil => rfl
  | append_singleton es e ih =>
    unfold buildNodes
    rw [List.foldl_append]
    simp only [List.foldl_cons, List.foldl_nil]
    by_cases hk : k = normKey e.1
    · have hb : (normKey e.1 == k) = true := beq_iff_eq.mpr (Eq.symm hk)
      rw [if_pos hk, List.filter_append]
      have hf : List.filter (fun e2 => normKey e2.1 == k) [e] = [e] := by
        simp [List.filter_cons, hb]
      rw [hf, List.getLast?_concat]
      rfl
    · have hb : (normKey e.1 == k) = false := by
        cases hcase : normKey e.1 == k with
        | false => rfl
        | true => exact absurd (Eq.symm (beq_iff_eq.mp hcase)) hk
      rw [if_neg hk, List.filter_append]
      have hf : List.filter (fun e2 => normKey e2.1 == k) [e] = [] := by
        simp [List.filter_cons, hb]
      rw [hf, List.append_nil]
      exact ih

/-! ### Replace-all of the comment marker -/

theorem tmMarker_none_ne (c : Char) (cs : List Char) (h : ¬c = '#') :
    tmMarker (c :: cs) = none := by
  unfold tmMarker
  rw [if_neg]
  intro hp
  have hpre : chars "#!#comment:" <+: c :: cs := by
    rw [← List.isPrefixOf_iff_prefix]
    exact hp
  obtain ⟨t, ht⟩ := hpre
  rw [show chars "#!#comment:" = '#' :: chars "!#comment:" from rfl,
    List.cons_append] at ht
  injection ht with h1 h2
  exact h (Eq.symm h1)

theorem restoreMarker_cons_ne (c : Char) (cs : List Char) (h : ¬c = '#') :
    restoreMarker (c :: cs) = c :: restoreMarker cs :=
  reSub_cons_none _ _ _ (tmMarker_none_ne c cs h)

theorem restoreMarker_skip (a t : List Char) (h : ∀ c ∈ a, ¬c = '#') :
    restoreMarker (a ++ t) = a ++ restoreMarker t :=
  reSub_skip _ a t (fun c hc cs => tmMarker_none_ne c cs (h c hc))

theorem restoreMarker_id (l : List Char) (h : ∀ c ∈ l, ¬c = '#') :
    restoreMarker l = l := by
  have h2 := restoreMarker_skip l [] h
  rw [show restoreMarker ([] : List Char) = [] from rfl] at h2
  simpa using h2

theorem isPrefixOf_append_self (l t : List Char) : l.isPrefixOf (l ++ t) = true := by
  induction l with
  | nil => simp [List.isPrefixOf]
  | cons c l2 ih => simp [List.isPrefixOf, ih]

theorem tmMarker_rest_lt (l r rest : List Char) (h : tmMarker l = some (r, rest)) :
    rest.length < l.length := by
  unfold tmMarker at h
  split at h
  case isTrue hp =>
    injection h with h1
    injection h1 with ha hb
    subst hb
    have hpre : chars "#!#comment:" <+: l := by
      rw [← List.isPrefixOf_iff_prefix]
      exact hp
    have hlen : 11 ≤ l.length := by
      have := hpre.length_le
      simpa using this
    simp only [List.length_drop]
    omega
  case isFalse => exact absurd h (by simp)

theorem tmMarker_at (b : List Char) :
    tmMarker (chars "#!#comment:" ++ b) = some (['#', ' '], b) := by
  unfold tmMarker
  rw [if_pos (isPrefixOf_append_self _ b)]
  rw [show (11 : Nat) = (chars "#!#comment:").length from rfl, List.drop_left]

theorem restoreMarker_at (b : List Char) :
    restoreMarker (chars "#!#comment:" ++ b) = '#' :: ' ' :: restoreMarker b := by
  rw [show chars "#!#comment:" ++ b =
      '#' :: (chars "!#comment:" ++ b) from rfl]
  rw [show restoreMarker ('#' :: (chars "!#comment:" ++ b)) =
      ['#', ' '] ++ restoreMarker b from
    reSub_cons_some _ tmMarker_rest_lt _ _ _ _ (tmMarker_at b)]
  rfl

/-! ### splitlines on break-free text -/

set_option maxHeartbeats 2000000 in
theorem splitKeepAux_step (c : Char) (cur rest : List Char) (h1 : isLineBreak c = false) :
    splitKeepAux cur (c :: rest) = splitKeepAux (c :: cur) rest := by
  have hcr : ¬c = '\r' := by
    intro he
    subst he
    exact absurd h1 (by decide)
  conv_lhs => unfold splitKeepAux
  split
  case h_1 cu a b heq => exact absurd heq (by simp)
  case h_2 cu a b r2 heq =>
    injection heq with ha hb
    exact absurd ha hcr
  case h_3 cu a b c2 r2 hnp heq =>
    injection heq with ha hb
    subst ha; subst hb
    simp [h1]

set_option maxHeartbeats 2000000 in
theorem splitKeepAux_nobreak (l : List Char) (h : ∀ c ∈ l, isLineBreak c = false) :
    ∀ cur : List Char,
      splitKeepAux cur l = if cur = [] ∧ l = [] then [] else [cur.reverse ++ l] := by
  induction l with
  | nil =>
    intro cur
    unfold splitKeepAux
    by_cases hc : cur = [] <;> simp [hc]
  | cons c l2 ih =>
    intro cur
    rw [splitKeepAux_step c cur l2 (h c (List.mem_cons_self c l2)),
      ih (fun d hd => h d (List.mem_cons_of_mem c hd)) (c :: cur)]
    simp

theorem splitKeep_single (l : List Char) (hne : l ≠ [])
    (h : ∀ c ∈ l, isLineBreak c = false) : pySplitLinesKeep l = [l] := by
  unfold pySplitLinesKeep
  rw [splitKeepAux_nobreak l h []]
  simp [hne]

/-! ### Splitting on the comment delimiter -/

theorem splitPctAux_sep_at (cur b : List Char) :
    splitPctAux cur ('%' :: '%' :: b) = cur.reverse :: splitPctAux [] b := rfl

theorem splitPctAux_step (c : Char) (cur rest : List Char) (h : ¬c = '%') :
    splitPctAux cur (c :: rest) = splitPctAux (c :: cur) rest := by
  conv_lhs => unfold splitPctAux
  split
  case h_1 cu b heq =>
    injection heq with ha hb
    exact absurd ha h
  case h_2 cu c2 r2 hnp heq =>
    injection heq with ha hb
    subst ha; subst hb
    rfl
  case h_3 cu heq =>
    exact absurd heq (by simp)

theorem splitPctAux_no (l : List Char) (h : ∀ c ∈ l, ¬c = '%') :
    ∀ cur : List Char, splitPctAux cur l = [cur.reverse ++ l] := by
  induction l with
  | nil =>
    intro cur
    unfold splitPctAux
    simp
  | cons c l2 ih =>
    intro cur
    rw [splitPctAux_step c cur l2 (h c (List.mem_cons_self c l2)),
      ih (fun d hd => h d (List.mem_cons_of_mem c hd)) (c :: cur)]
    simp

theorem splitPctAux_sep (a b : List Char) (ha : ∀ c ∈ a, ¬c = '%') :
    ∀ cur : List Char,
      splitPctAux cur (a ++ '%' :: '%' :: b) = (cur.reverse ++ a) :: splitPctAux [] b := by
  induction a with
  | nil =>
    intro cur
    rw [List.nil_append, splitPctAux_sep_at]
    simp
  | cons c a2 ih =>
    intro cur
    rw [List.cons_append, splitPctAux_step c cur _ (ha c (List.mem_cons_self c a2)),
      ih (fun d hd => ha d (List.mem_cons_of_mem c hd)) (c :: cur)]
    simp

theorem fmcChunk_inline (b : List Char) (hnl : '\n' ∉ b) :
    fmcChunk b = [chars "<!--", b, chars "-->"] := by
  unfold fmcChunk
  rw [if_neg hnl]

/-! ### Shapes of the produced references -/

theorem idref_shape (X L : List Char) :
    chars "[[id:" ++ X ++ chars "][" ++ L ++ chars "]]" =
      '[' :: '[' :: 'i' :: 'd' :: ':' :: (X ++ ']' :: '[' :: (L ++ [']', ']'])) := by
  rw [show chars "[[id:" = ['[', '[', 'i', 'd', ':'] from rfl,
    show chars "][" = [']', '['] from rfl,
    show chars "]]" = [']', ']'] from rfl]
  simp [List.append_assoc]

theorem fileref_shape (p : List Char) :
    chars "[[file:" ++ p ++ chars ".org][" ++ p ++ chars "]]" =
      '[' :: '[' :: 'f' :: 'i' :: 'l' :: 'e' :: ':' ::
        ((p ++ chars ".org") ++ ']' :: '[' :: (p ++ [']', ']'])) := by
  rw [show chars "[[file:" = ['[', '[', 'f', 'i', 'l', 'e', ':'] from rfl,
    show chars ".org][" = ['.', 'o', 'r', 'g', ']', '['] from rfl,
    show chars "]]" = [']', ']'] from rfl,
    show chars ".org" = ['.', 'o', 'r', 'g'] from rfl]
  simp [List.append_assoc]

theorem bareref_shape (p : List Char) :
    chars "[[" ++ p ++ chars "]]" = '[' :: '[' :: (p ++ [']', ']']) := by
  rw [show chars "[[" = ['[', '['] from rfl, show chars "]]" = [']', ']'] from rfl]
  simp

/-! ### The embed matcher at its position -/

theorem tmEmbed_at_plain (g r2 : List Char) (hg : ∀ c ∈ g, embChar c = true) (hne : g ≠ []) :
    tmEmbed ('!' :: '[' :: '[' :: (g ++ ']' :: ']' :: r2)) =
      some (chars "[[file:../attachments/" ++ g ++ chars "]]", r2) := by
  have htw : (g ++ ']' :: ']' :: r2).takeWhile embChar = g := by
    rw [takeWhile_append_all _ _ _ hg]
    simp [List.takeWhile_cons, embChar]
  have hdw : (g ++ ']' :: ']' :: r2).dropWhile embChar = ']' :: ']' :: r2 := by
    rw [dropWhile_append_all _ _ _ hg]
    simp [List.dropWhile_cons, embChar]
  simp only [tmEmbed]
  rw [htw, hdw, if_neg hne]
  rfl

theorem tmEmbed_at_pipe (g s r4 : List Char) (hg : ∀ c ∈ g, embChar c = true) (hne : g ≠ [])
    (hs : ∀ c ∈ s, notRB c = true) :
    tmEmbed ('!' :: '[' :: '[' :: (g ++ '|' :: (s ++ ']' :: ']' :: r4))) =
      some (chars "[[file:../attachments/" ++ g ++ chars "]]", r4) := by
  have htw : (g ++ '|' :: (s ++ ']' :: ']' :: r4)).takeWhile embChar = g := by
    rw [takeWhile_append_all _ _ _ hg]
    simp [List.takeWhile_cons, embChar]
  have hdw : (g ++ '|' :: (s ++ ']' :: ']' :: r4)).dropWhile embChar =
      '|' :: (s ++ ']' :: ']' :: r4) := by
    rw [dropWhile_append_all _ _ _ hg]
    simp [List.dropWhile_cons, embChar]
  have hdw2 : (s ++ ']' :: ']' :: r4).dropWhile notRB = ']' :: ']' :: r4 := by
    rw [dropWhile_append_all _ _ _ hs]
    simp [List.dropWhile_cons, notRB]
  simp only [tmEmbed]
  rw [htw, hdw, if_neg hne]
  show (match List.dropWhile notRB (s ++ ']' :: ']' :: r4) with
    | ']' :: ']' :: r5 => some (chars "[[file:../attachments/" ++ g ++ chars "]]", r5)
    | _ => none) = some (chars "[[file:../attachments/" ++ g ++ chars "]]", r4)
  rw [hdw2]
  rfl

/-! ### skipCheck facts -/

theorem skipCheck_attachments (g : List Char) :
    skipCheck (chars "file:../attachments/" ++ g) = true := by
  have hm : '/' ∈ firstLine (chars "file:../attachments/" ++ g) := by
    unfold firstLine
    rw [takeWhile_append_all _ _ _ (by decide)]
    exact List.mem_append_left _ (by decide)
  simp [skipCheck, hm]

theorem embChar_to_wiki (c : Char) (h1 : embChar c = true) (h2 : ¬c = '[') :
    wikiChar c = true := by
  simp only [embChar, Bool.not_eq_true', Bool.or_eq_false_iff, decide_eq_false_iff_not] at h1
  simp only [wikiChar, Bool.not_eq_true', Bool.or_eq_false_iff, decide_eq_false_iff_not]
  exact ⟨⟨h1.1, h1.2⟩, h2⟩

theorem firstLine_eq_self (p : List Char) (hnl : '\n' ∉ p) : firstLine p = p := by
  unfold firstLine
  have hall : ∀ c ∈ p, (!(c = '\n') : Bool) = true := by
    intro c hc
    simp only [Bool.not_eq_true', decide_eq_false_iff_not]
    intro he
    subst he
    exact hnl hc
  rw [show p = p ++ [] from (List.append_nil p).symm, takeWhile_append_all _ _ _ hall]
  simp

theorem skipCheck_false_parts (p : List Char) (hnl : '\n' ∉ p) (h : skipCheck p = false) :
    '.' ∉ p ∧ '/' ∉ p := by
  simp only [skipCheck, Bool.or_eq_false_iff, decide_eq_false_iff_not] at h
  rw [firstLine_eq_self p hnl] at h
  exact ⟨h.2, h.1.2⟩

/-! ### fix_links on a whole embed -/

theorem attachref_shape (g : List Char) :
    chars "[[file:../attachments/" ++ g ++ chars "]]" =
      '[' :: '[' :: ((chars "file:../attachments/" ++ g) ++ [']', ']']) := by
  rw [show chars "[[file:../attachments/" = '[' :: '[' :: chars "file:../attachments/" from rfl,
    show chars "]]" = [']', ']'] from rfl]
  simp [List.append_assoc]

theorem attachref_fixed (g : List Char) (hg : ∀ c ∈ g, embChar c = true ∧ ¬c = '[') :
    descSub (chars "[[file:../attachments/" ++ g ++ chars "]]") =
        chars "[[file:../attachments/" ++ g ++ chars "]]" ∧
      simpleSub (chars "[[file:../attachments/" ++ g ++ chars "]]") =
        chars "[[file:../attachments/" ++ g ++ chars "]]" := by
  constructor
  · apply descSub_eq_self
    intro hm
    rcases List.mem_append.mp hm with hm2 | hm2
    · rcases List.mem_append.mp hm2 with hm3 | hm3
      · exact absurd hm3 (by decide)
      · have := (hg '|' hm3).1
        exact absurd this (by decide)
    · exact absurd hm2 (by decide)
  · have hlit : ∀ c ∈ chars "file:../attachments/", wikiChar c = true := by decide
    have hgr : ∀ c ∈ chars "file:../attachments/" ++ g, wikiChar c = true := by
      intro c hc
      rcases List.mem_append.mp hc with hm | hm
      · exact hlit c hm
      · exact embChar_to_wiki c (hg c hm).1 (hg c hm).2
    have hne2 : chars "file:../attachments/" ++ g ≠ [] := by
      intro he
      have := congrArg List.length he
      simp [chars] at this
    rw [attachref_shape g,
      simpleSub_cons_some _ _ _ _ (tmSimple_at _ [] hgr hne2)]
    rw [show simpleRepl (chars "file:../attachments/" ++ g) =
        chars "[[" ++ (chars "file:../attachments/" ++ g) ++ chars "]]" from by
      unfold simpleRepl
      rw [skipCheck_attachments g]
      rfl]
    rw [show simpleSub [] = [] from rfl, bareref_shape]
    simp

theorem fixLinks_embed_plain (g : List Char) (hg : ∀ c ∈ g, embChar c = true ∧ ¬c = '[')
    (hne : g ≠ []) :
    fixLinks ('!' :: '[' :: '[' :: (g ++ [']', ']'])) =
      chars "[[file:../attachments/" ++ g ++ chars "]]" := by
  unfold fixLinks
  rw [show embedSub ('!' :: '[' :: '[' :: (g ++ [']', ']'])) =
      (chars "[[file:../attachments/" ++ g ++ chars "]]") ++ embedSub [] from
    embedSub_cons_some _ _ _ _ (tmEmbed_at_plain g [] (fun c hc => (hg c hc).1) hne)]
  rw [show embedSub [] = [] from rfl, List.append_nil]
  rw [(attachref_fixed g hg).1, (attachref_fixed g hg).2]

theorem fixLinks_embed_pipe (g s : List Char) (hg : ∀ c ∈ g, embChar c = true ∧ ¬c = '[')
    (hne : g ≠ []) (hs : ∀ c ∈ s, notRB c = true) :
    fixLinks ('!' :: '[' :: '[' :: (g ++ '|' :: (s ++ [']', ']']))) =
      chars "[[file:../attachments/" ++ g ++ chars "]]" := by
  unfold fixLinks
  rw [show embedSub ('!' :: '[' :: '[' :: (g ++ '|' :: (s ++ [']', ']']))) =
      (chars "[[file:../attachments/" ++ g ++ chars "]]") ++ embedSub [] from
    embedSub_cons_some _ _ _ _ (tmEmbed_at_pipe g s [] (fun c hc => (hg c hc).1) hne hs)]
  rw [show embedSub [] = [] from rfl, List.append_nil]
  rw [(attachref_fixed g hg).1, (attachref_fixed g hg).2]

/-- Pass 2 on a file reference produced by Pass 1 from a plain page name:
the file pass resolves it to an identifier reference, which the bare pass
leaves untouched. -/
theorem relink_fileref (nodes : List Char → Option (List Char)) (p nid : List Char)
    (hp : ∀ c ∈ p, wikiChar c = true) (hnl : '\n' ∉ p) (hne : p ≠ [])
    (hdot : '.' ∉ p) (hslash : '/' ∉ p)
    (hlook : nodes (normKey p) = some nid) (hnid : ∀ c ∈ nid, wikiChar c = true) :
    relink nodes ('[' :: '[' :: 'f' :: 'i' :: 'l' :: 'e' :: ':' ::
      ((p ++ chars ".org") ++ ']' :: '[' :: (p ++ [']', ']']))) =
    '[' :: '[' :: 'i' :: 'd' :: ':' :: (nid ++ ']' :: '[' :: (nbspRepl p ++ [']', ']'])) := by
  have hpok : ∀ c ∈ p, ¬c = ']' ∧ ¬c = '\n' := by
    intro c hc
    constructor
    · intro he
      subst he
      exact absurd (hp ']' hc) (by decide)
    · intro he
      subst he
      exact hnl hc
  have horg : ∀ c ∈ chars ".org", ¬c = ']' ∧ ¬c = '\n' := by decide
  have hraw : ∀ c ∈ p ++ chars ".org", ¬c = ']' ∧ ¬c = '\n' := by
    intro c hc
    rcases List.mem_append.mp hc with hm | hm
    · exact hpok c hm
    · exact horg c hm
  have hmatch := tmFile_at nodes (p ++ chars ".org") p [] hraw hpok
  unfold relink
  rw [fileSub_cons_some nodes _ _ _ _ hmatch]
  rw [show fileSub nodes [] = [] from rfl, List.append_nil]
  have hrepl : fileRepl nodes (p ++ chars ".org") p =
      chars "[[id:" ++ nid ++ chars "][" ++ nbspRepl p ++ chars "]]" := by
    unfold fileRepl
    rw [pyStem_org p hne hdot hslash, hlook]
  rw [hrepl, idref_shape]
  apply bareSub_idref nodes nid (nbspRepl p) hnid
  intro c hc
  obtain ⟨a, ha, hfa⟩ := List.mem_map.mp hc
  have hwa := hp a ha
  by_cases hnb : a = ' '
  · rw [if_pos hnb] at hfa
    subst hfa
    exact ⟨by decide, by decide⟩
  · rw [if_neg hnb] at hfa
    subst hfa
    constructor
    · intro he
      rw [he] at hwa
      exact absurd hwa (by decide)
    · intro he
      rw [he] at hwa
      exact absurd hwa (by decide)

/-! ## The claims -/

/-- Counterexample to claim C1 as stated: the document is the single bare
wiki link whose page is A-double-space-B.x, and a sibling with stem
A-space-B.x is registered.  The whitespace-normalized stem equals the
whitespace-normalized page (first conjunct), yet after both passes the
output is the untouched bare link, with no identifier reference: the page
contains a dot, so Pass 1 skips it, and the bare-link pass of Pass 2 builds
its key without collapsing whitespace runs, missing the registry. -/
theorem c1_counterexample :
    normKey (chars "A  B.x") = normKey (chars "A B.x") ∧
    relink (buildNodes [(chars "A B.x", chars "N1")])
        (fixLinks (chars "[[A  B.x]]")) = chars "[[A  B.x]]" ∧
    ¬ (chars "[[id:" <:+: relink (buildNodes [(chars "A B.x", chars "N1")])
        (fixLinks (chars "[[A  B.x]]"))) :=
  ⟨by decide, by decide, by decide⟩

/-- Claim C1 (amended): for a bare wiki link whose page name is nonempty,
has none of the bracket or pipe characters, contains no newline, and is not
skipped by the URL/slash/dot check, if the registry maps the
whitespace-normalized page to an identifier made of plain characters, then
Pass 1 followed by Pass 2 turns the document into exactly one identifier
reference to that identifier whose display label is the page with U+00A0
replaced by ASCII spaces - in particular no file reference remains. -/
theorem c1_theorem (nodes : List Char → Option (List Char)) (p nid : List Char)
    (h1 : p ≠ []) (h2 : ∀ c ∈ p, wikiChar c = true) (h3 : '\n' ∉ p)
    (h4 : skipCheck p = false) (h5 : nodes (normKey p) = some nid)
    (h6 : ∀ c ∈ nid, wikiChar c = true) :
    relink nodes (fixLinks (chars "[[" ++ p ++ chars "]]")) =
      chars "[[id:" ++ nid ++ chars "][" ++ nbspRepl p ++ chars "]]" := by
  obtain ⟨hdot, hslash⟩ := skipCheck_false_parts p h3 h4
  rw [bareref_shape, fixLinks_bare p h2 h1]
  rw [show simpleRepl p = chars "[[file:" ++ p ++ chars ".org][" ++ p ++ chars "]]" from by
    unfold simpleRepl
    rw [h4]
    rfl]
  rw [fileref_shape, idref_shape]
  exact relink_fileref nodes p nid h2 h3 h1 hdot hslash h5 h6

/-- Witness for C1 at a concrete registry and document. -/
theorem c1_witness :
    relink (buildNodes [(chars "Page", chars "2F3A")]) (fixLinks (chars "[[Page]]")) =
      chars "[[id:2F3A][Page]]" := by
  have h := c1_theorem (buildNodes [(chars "Page", chars "2F3A")]) (chars "Page")
    (chars "2F3A") (by decide) (by decide) (by decide) (by decide) (by decide) (by decide)
  exact h.trans (by decide)

/-- Counterexample to claim C2 as stated: the labeled wiki link whose target
is a URL is rewritten by `fix_links`, not left byte-identical, because the
labeled-form rule has no URL/path/extension skip. -/
theorem c2_counterexample :
    fixLinks (chars "[[http://a|b]]") = chars "[[file:http://a.org][b]]" ∧
    ¬ fixLinks (chars "[[http://a|b]]") = chars "[[http://a|b]]" :=
  ⟨by decide, by decide⟩

/-- Claim C2 (amended): for an unlabeled wiki link whose target matches the
skip pattern (http or https scheme, or a slash or dot in its first line),
Pass 1 (`fix_links`) leaves the link byte-identical; the labeled form is
always rewritten, as the counterexample shows. -/
theorem c2_theorem (p : List Char) (h1 : p ≠ []) (h2 : ∀ c ∈ p, wikiChar c = true)
    (h3 : skipCheck p = true) :
    fixLinks (chars "[[" ++ p ++ chars "]]") = chars "[[" ++ p ++ chars "]]" := by
  rw [bareref_shape, fixLinks_bare p h2 h1]
  unfold simpleRepl
  rw [h3]
  rw [bareref_shape]
  rfl

/-- Witness for C2 at a dotted target. -/
theorem c2_witness : fixLinks (chars "[[a.b]]") = chars "[[a.b]]" := by
  have h := c2_theorem (chars "a.b") (by decide) (by decide) (by decide)
  exact h

/-- Counterexample to claim C3 as stated: the registry holds the key
A-space-B, the claimed lookup key of the bare link with text A-double-space-B
after collapsing runs; the code does not collapse runs, so the link stays
untouched even though the claimed key is registered. -/
theorem c3_counterexample :
    buildNodes [(chars "A B", chars "N3")] (normKey (chars "A  B")) = some (chars "N3") ∧
    relink (buildNodes [(chars "A B", chars "N3")]) (chars "[[A  B]]") = chars "[[A  B]]" :=
  ⟨by decide, by decide⟩

/-- Claim C3 (amended): in the relink pass, a remaining bare link with plain
bracketed text is resolved by replacing U+00A0 with ASCII spaces and
stripping - with no collapsing of whitespace runs - to form the key; when
the key is registered the link becomes an identifier reference labeled by
the U+00A0-replaced, unstripped text, and otherwise it is left untouched. -/
theorem c3_theorem (nodes : List Char → Option (List Char)) (t : List Char)
    (h1 : t ≠ []) (h2 : ∀ c ∈ t, wikiChar c = true) :
    relink nodes (chars "[[" ++ t ++ chars "]]") =
      (match nodes (pyStrip (nbspRepl t)) with
       | some nid => chars "[[id:" ++ nid ++ chars "][" ++ nbspRepl t ++ chars "]]"
       | none => chars "[[" ++ t ++ chars "]]") := by
  rw [bareref_shape, relink_bare nodes t h2 h1]
  unfold bareRepl
  cases nodes (pyStrip (nbspRepl t)) with
  | none => rw [bareref_shape]
  | some nid => rfl

/-- Witness for C3 at a concrete registry hit. -/
theorem c3_witness :
    relink (buildNodes [(chars "A B", chars "N3")]) (chars "[[A B]]") =
      chars "[[id:N3][A B]]" := by
  have h := c3_theorem (buildNodes [(chars "A B", chars "N3")]) (chars "A B")
    (by decide) (by decide)
  exact h.trans (by decide)

/-- Claim C4: the registry built over the walk-order entry list holds, for
every key, the identifier of the last entry whose normalized stem equals the
key - one entry per distinct normalized name, later registrations silently
overwriting earlier ones. -/
theorem c4_theorem (entries : List (List Char × List Char)) (k : List Char) :
    buildNodes entries k =
      ((entries.filter (fun e => normKey e.1 == k)).getLast?).map Prod.snd :=
  buildNodes_last entries k

/-- Counterexample to claim C5 as stated: an embed whose name contains two
open brackets is rewritten by the embed rule, but the simple wiki rule then
re-matches inside the produced file reference, so the output is not the
claimed file reference to the attachments path. -/
theorem c5_counterexample :
    fixLinks (chars "![[a[[b]]") = chars "[[file:../attachments/a[[file:b.org][b]]" ∧
    ¬ fixLinks (chars "![[a[[b]]") = chars "[[file:../attachments/a[[b]]" :=
  ⟨by decide, by decide⟩

/-- Claim C5 (amended): for every embed whose name is nonempty, free of the
close bracket and pipe (which the pattern excludes) and of the open bracket,
and whose optional size hint has no close bracket, Pass 1 rewrites the embed
to a file reference targeting the attachments path with the bare name, the
size hint being discarded. -/
theorem c5_theorem (name size : List Char) (h1 : name ≠ [])
    (h2 : ∀ c ∈ name, embChar c = true ∧ ¬c = '[') (h3 : ∀ c ∈ size, notRB c = true) :
    fixLinks (chars "![[" ++ name ++ chars "|" ++ size ++ chars "]]") =
        chars "[[file:../attachments/" ++ name ++ chars "]]" ∧
      fixLinks (chars "![[" ++ name ++ chars "]]") =
        chars "[[file:../attachments/" ++ name ++ chars "]]" := by
  constructor
  · rw [show chars "![[" ++ name ++ chars "|" ++ size ++ chars "]]" =
        '!' :: '[' :: '[' :: (name ++ '|' :: (size ++ [']', ']'])) from by
      rw [show chars "![[" = ['!', '[', '['] from rfl, show chars "|" = ['|'] from rfl,
        show chars "]]" = [']', ']'] from rfl]
      simp [List.append_assoc]]
    exact fixLinks_embed_pipe name size h2 h1 h3
  · rw [show chars "![[" ++ name ++ chars "]]" =
        '!' :: '[' :: '[' :: (name ++ [']', ']']) from by
      rw [show chars "![[" = ['!', '[', '['] from rfl,
        show chars "]]" = [']', ']'] from rfl]
      simp [List.append_assoc]]
    exact fixLinks_embed_plain name h2 h1

/-- Witness for C5: the round-trip example of the specification. -/
theorem c5_witness :
    fixLinks (chars "![[photo.png|300]]") = chars "[[file:../attachments/photo.png]]" := by
  have h := (c5_theorem (chars "photo.png") (chars "300")
    (by decide) (by decide) (by decide)).1
  exact h

/-- Claim C6: on a document with no two adjacent open brackets - hence no
double-bracket link and no file reference - the Pass 2 relink transform is
the identity, so applying it twice equals applying it once. -/
theorem c6_theorem (nodes : List Char → Option (List Char)) (l : List Char)
    (h : hasLL l = false) :
    relink nodes (relink nodes l) = relink nodes l := by
  rw [relink_eq_self_noLL nodes l h, relink_eq_self_noLL nodes l h]

/-- Witness for C6 on a concrete link-free document. -/
theorem c6_witness :
    relink (buildNodes []) (relink (buildNodes []) (chars "plain text, no links.\n")) =
      relink (buildNodes []) (chars "plain text, no links.\n") :=
  c6_theorem (buildNodes []) (chars "plain text, no links.\n") (by decide)

/-- Claim C7: the stamped output is exactly the property-block open marker
line, the identifier-binding line, the close marker line, the title
directive line, a blank line, and then the previously written body,
unchanged. -/
theorem c7_theorem (content nodeId stem : List Char) :
    addNodeId content nodeId stem = specMetadataHeader nodeId stem ++ content := by
  unfold addNodeId specMetadataHeader
  rw [show chars ":PROPERTIES:\n" = chars ":PROPERTIES:" ++ ['\n'] from rfl,
    show chars ":END:\n" = chars ":END:" ++ ['\n'] from rfl,
    show chars "\n" = ['\n'] from rfl,
    show chars "\n\n" = ['\n'] ++ ['\n'] from rfl]
  simp [List.append_assoc]

/-- Counterexample to claim C8 as stated: a marker that is not at the start
of its line is replaced all the same, because the replacement runs over the
whole line, not only at its start. -/
theorem c8_counterexample :
    restoreComments (chars "a#!#comment:b\n") = chars "a# b\n" ∧
    ¬ chars "a# b\n" = chars "a#!#comment:b\n" :=
  ⟨by decide, by decide⟩

/-- Claim C8 (amended): every occurrence of the private marker token,
whether at the start of a line or in its middle, is replaced by the plain
comment prefix; shown here for a single-line document with an arbitrary
hash-free prefix before the marker. -/
theorem c8_theorem (a b : List Char)
    (ha : ∀ c ∈ a, isLineBreak c = false ∧ ¬c = '#')
    (hb : ∀ c ∈ b, isLineBreak c = false ∧ ¬c = '#') :
    restoreComments (a ++ chars "#!#comment:" ++ b) = a ++ chars "# " ++ b := by
  have hmk : ∀ c ∈ chars "#!#comment:", isLineBreak c = false := by decide
  have hnb : ∀ c ∈ a ++ chars "#!#comment:" ++ b, isLineBreak c = false := by
    intro c hc
    rcases List.mem_append.mp hc with hm | hm
    · rcases List.mem_append.mp hm with hm2 | hm2
      · exact (ha c hm2).1
      · exact hmk c hm2
    · exact (hb c hm).1
  have hne : a ++ chars "#!#comment:" ++ b ≠ [] := by
    intro he
    have := congrArg List.length he
    simp [chars] at this
  unfold restoreComments
  rw [splitKeep_single _ hne hnb]
  simp only [List.map_cons, List.map_nil, List.flatten_cons, List.flatten_nil,
    List.append_nil]
  rw [List.append_assoc, restoreMarker_skip a _ (fun c hc => (ha c hc).2),
    restoreMarker_at b, restoreMarker_id b (fun c hc => (hb c hc).2)]
  rw [show chars "# " = ['#', ' '] from rfl]
  simp

/-- Witness for C8 with a mid-line marker. -/
theorem c8_witness : restoreComments (chars "xy#!#comment:z") = chars "xy# z" := by
  have h := c8_theorem (chars "xy") (chars "z") (by decide) (by decide)
  exact h

/-- Counterexample to claim C9 as stated: with one delimiter (an odd count)
the trailing span is wrapped as an inline comment, not appended verbatim
(neither with nor without the delimiter). -/
theorem c9_counterexample :
    fixMarkdownComments (chars "a%%b") = chars "a<!--b-->" ∧
    ¬ fixMarkdownComments (chars "a%%b") = chars "ab" ∧
    ¬ fixMarkdownComments (chars "a%%b") = chars "a%%b" :=
  ⟨by decide, by decide, by decide⟩

/-- Claim C9 (amended): with an odd number of delimiters the trailing span is
treated as a comment span - here the single-line case, wrapped in the html
comment markers; the transform is total and never raises. -/
theorem c9_theorem (a b : List Char) (ha : ∀ c ∈ a, ¬c = '%') (hb : ∀ c ∈ b, ¬c = '%')
    (hnl : '\n' ∉ b) :
    fixMarkdownComments (a ++ chars "%%" ++ b) =
      a ++ chars "<!--" ++ b ++ chars "-->" := by
  unfold fixMarkdownComments splitPct
  rw [List.append_assoc, show chars "%%" ++ b = '%' :: '%' :: b from rfl,
    splitPctAux_sep a b ha [], splitPctAux_no b hb []]
  simp only [List.reverse_nil, List.nil_append]
  show (a :: (fmcChunk b ++ [])).flatten = _
  rw [fmcChunk_inline b hnl]
  simp [List.append_assoc]

/-- Witness for C9 at a concrete odd-delimiter document. -/
theorem c9_witness : fixMarkdownComments (chars "x%%y") = chars "x<!--y-->" := by
  have h := c9_theorem (chars "x") (chars "y") (by decide) (by decide) (by decide)
  exact h

/-- Counterexample to claim C10 as stated: a file-link label may itself
contain file-link text; the first relink then produces an identifier
reference whose label still holds a file link, and a second relink rewrites
inside it, so relinking already-relinked output is not the identity. -/
theorem c10_counterexample :
    ¬ relink (buildNodes [(chars "a", chars "AAA")])
        (relink (buildNodes [(chars "a", chars "AAA")]) (chars "[[file:a][x[[file:a][y]]")) =
      relink (buildNodes [(chars "a", chars "AAA")]) (chars "[[file:a][x[[file:a][y]]") := by
  decide

/-- Claim C10 (amended): an identifier reference whose identifier consists of
plain link-name characters and whose label contains no brackets is matched by
neither relink pattern, and the relink pass leaves it unchanged. -/
theorem c10_theorem (nodes : List Char → Option (List Char)) (X L : List Char)
    (hX : ∀ c ∈ X, wikiChar c = true) (hL : ∀ c ∈ L, ¬c = '[' ∧ ¬c = ']') :
    relink nodes (chars "[[id:" ++ X ++ chars "][" ++ L ++ chars "]]") =
      chars "[[id:" ++ X ++ chars "][" ++ L ++ chars "]]" := by
  have hXn : ∀ c ∈ X, ¬c = '[' := by
    intro c hc he
    have h := hX c hc
    subst he
    exact absurd h (by decide)
  rw [idref_shape]
  unfold relink
  rw [fileSub_idref nodes X L hXn (fun c hc => (hL c hc).1),
    bareSub_idref nodes X L hX hL]

/-- Witness for C10 on a concrete identifier reference. -/
theorem c10_witness :
    relink (buildNodes []) (chars "[[id:AAA][b]]") = chars "[[id:AAA][b]]" := by
  have h := c10_theorem (buildNodes []) (chars "AAA") (chars "b") (by decide) (by decide)
  exact h
